import Mathlib

/-!
Verification of the conjugate-gradient solver of `deepmr` (`src/deepmr/optim/cg.py`).

The solver operates on complex-valued tensors.  We embed the tensor entries as
exact complex numbers with rational real and imaginary parts (`Cq`), so that
every state of the algorithm can be evaluated on concrete inputs.  A tensor with
leading batch axes and `ndim` trailing spatial axes is embedded as a function
`B → S → Cq`, where `B` indexes the (flattened) batch axes and `S` the
(flattened) trailing spatial axes; the `reshape`/`sum(axis=-1)`/unsqueeze dance
of `CGStep.dot` then becomes a sum over `S` producing one scalar per batch
index, broadcast back against the vectors by pointwise application.
-/

namespace DeepMR

/-- Complex scalar with rational real and imaginary parts, an exact model of the
complex tensor entries used by `deepmr.optim.cg`. -/
structure Cq where
  re : ℚ
  im : ℚ
deriving DecidableEq, Repr

namespace Cq

theorem ext2 {z w : Cq} (h1 : z.re = w.re) (h2 : z.im = w.im) : z = w := by
  cases z; cases w; simp_all

instance : Zero Cq := ⟨⟨0, 0⟩⟩
instance : One Cq := ⟨⟨1, 0⟩⟩
instance : Add Cq := ⟨fun z w => ⟨z.re + w.re, z.im + w.im⟩⟩
instance : Neg Cq := ⟨fun z => ⟨-z.re, -z.im⟩⟩
instance : Sub Cq := ⟨fun z w => ⟨z.re - w.re, z.im - w.im⟩⟩
instance : Mul Cq := ⟨fun z w => ⟨z.re * w.re - z.im * w.im, z.re * w.im + z.im * w.re⟩⟩

@[simp] theorem zero_re : (0 : Cq).re = 0 := rfl
@[simp] theorem zero_im : (0 : Cq).im = 0 := rfl
@[simp] theorem one_re : (1 : Cq).re = 1 := rfl
@[simp] theorem one_im : (1 : Cq).im = 0 := rfl
@[simp] theorem add_re (z w : Cq) : (z + w).re = z.re + w.re := rfl
@[simp] theorem add_im (z w : Cq) : (z + w).im = z.im + w.im := rfl
@[simp] theorem neg_re (z : Cq) : (-z).re = -z.re := rfl
@[simp] theorem neg_im (z : Cq) : (-z).im = -z.im := rfl
@[simp] theorem sub_re (z w : Cq) : (z - w).re = z.re - w.re := rfl
@[simp] theorem sub_im (z w : Cq) : (z - w).im = z.im - w.im := rfl
@[simp] theorem mul_re (z w : Cq) : (z * w).re = z.re * w.re - z.im * w.im := rfl
@[simp] theorem mul_im (z w : Cq) : (z * w).im = z.re * w.im + z.im * w.re := rfl

instance : CommRing Cq where
  add_assoc a b c := by apply ext2 <;> simp <;> ring
  zero_add a := by apply ext2 <;> simp
  add_zero a := by apply ext2 <;> simp
  add_comm a b := by apply ext2 <;> simp <;> ring
  neg_add_cancel a := by apply ext2 <;> simp
  sub_eq_add_neg a b := by apply ext2 <;> simp <;> ring
  mul_assoc a b c := by apply ext2 <;> simp <;> ring
  one_mul a := by apply ext2 <;> simp
  mul_one a := by apply ext2 <;> simp
  left_distrib a b c := by apply ext2 <;> simp <;> ring
  right_distrib a b c := by apply ext2 <;> simp <;> ring
  zero_mul a := by apply ext2 <;> simp
  mul_zero a := by apply ext2 <;> simp
  mul_comm a b := by apply ext2 <;> simp <;> ring
  nsmul := nsmulRec
  zsmul := zsmulRec

/-- Embedding of a real scalar (a Python float) into the complex scalars. -/
def ofRat (q : ℚ) : Cq := ⟨q, 0⟩

@[simp] theorem ofRat_re (q : ℚ) : (ofRat q).re = q := rfl
@[simp] theorem ofRat_im (q : ℚ) : (ofRat q).im = 0 := rfl

/-- Complex conjugation, `torch.Tensor.conj`. -/
def conj (z : Cq) : Cq := ⟨z.re, -z.im⟩

@[simp] theorem conj_re (z : Cq) : (conj z).re = z.re := rfl
@[simp] theorem conj_im (z : Cq) : (conj z).im = -z.im := rfl

/-- Squared modulus. -/
def normSq (z : Cq) : ℚ := z.re ^ 2 + z.im ^ 2

/-- Complex inverse; total, with `inv 0 = 0` (rational division by zero is zero). -/
def inv (z : Cq) : Cq := ⟨z.re / normSq z, -z.im / normSq z⟩

instance : Div Cq := ⟨fun z w => z * inv w⟩

theorem div_def (z w : Cq) : z / w = z * inv w := rfl

@[simp] theorem normSq_def (z : Cq) : normSq z = z.re ^ 2 + z.im ^ 2 := rfl

@[simp] theorem inv_re (z : Cq) : (inv z).re = z.re / normSq z := rfl
@[simp] theorem inv_im (z : Cq) : (inv z).im = -z.im / normSq z := rfl

@[simp] theorem div_re (z w : Cq) :
    (z / w).re = z.re * (inv w).re - z.im * (inv w).im := rfl
@[simp] theorem div_im (z w : Cq) :
    (z / w).im = z.re * (inv w).im + z.im * (inv w).re := rfl

theorem inv_zero : inv 0 = 0 := by
  apply ext2 <;> simp

/-- `torch.real`, re-embedded as a complex scalar with zero imaginary part
(broadcast arithmetic with complex tensors promotes it back to complex). -/
def realPart (z : Cq) : Cq := ⟨z.re, 0⟩

@[simp] theorem realPart_re (z : Cq) : (realPart z).re = z.re := rfl
@[simp] theorem realPart_im (z : Cq) : (realPart z).im = 0 := rfl

theorem conj_mul_self_re (z : Cq) : (conj z * z).re = normSq z := by
  simp [normSq]; ring

theorem normSq_nonneg (z : Cq) : 0 ≤ normSq z := by
  have h1 : (0:ℚ) ≤ z.re ^ 2 := sq_nonneg _
  have h2 : (0:ℚ) ≤ z.im ^ 2 := sq_nonneg _
  simpa [normSq] using add_nonneg h1 h2

/-- The real part, as an additive monoid homomorphism (used to push `re`
through finite sums). -/
def reHom : Cq →+ ℚ where
  toFun := re
  map_zero' := rfl
  map_add' _ _ := rfl

@[simp] theorem reHom_apply (z : Cq) : reHom z = z.re := rfl

/-- The imaginary part, as an additive monoid homomorphism. -/
def imHom : Cq →+ ℚ where
  toFun := im
  map_zero' := rfl
  map_add' _ _ := rfl

@[simp] theorem imHom_apply (z : Cq) : imHom z = z.im := rfl

theorem conj_mul_scaled_self_re (c : ℚ) (z : Cq) :
    (conj z * (ofRat c * z)).re = c * normSq z := by
  simp; ring

theorem conj_mul_scaled_self_im (c : ℚ) (z : Cq) :
    (conj z * (ofRat c * z)).im = 0 := by
  simp; ring

theorem conj_mul_self_im (z : Cq) : (conj z * z).im = 0 := by
  simp; ring

end Cq

section CG

variable {B S : Type} [Fintype B] [Fintype S]

/-- Batched complex vector: one `Cq` entry per (batch index, spatial index). -/
def Vec (B S : Type) : Type := B → S → Cq

instance [DecidableEq B] [DecidableEq S] : DecidableEq (Vec B S) := by
  unfold Vec; infer_instance

/-- The zero vector (`0 * input` in `cg_solve`). -/
def zeroVec : Vec B S := fun _ _ => 0

/-- `CGStep.dot`: `s1.conj() * s2`, reshaped to collapse the trailing `ndim`
spatial axes, summed over them, yielding one scalar per leading batch index
(the trailing unsqueezes only re-broadcast the scalar against the vectors,
which pointwise application models directly). -/
def CGStep.dot (s1 s2 : Vec B S) : B → Cq :=
  fun b => ∑ s, Cq.conj (s1 b s) * s2 b s

/-- Mutable state of a `CGStep` module: residual `r`, search direction `p`,
`rsold`, and `rsnew` (which is `None` until the first `forward` call). -/
structure CGState (B S : Type) where
  r : Vec B S
  p : Vec B S
  rsold : B → Cq
  rsnew : Option (B → Cq)

/-- `CGStep.__init__`: `r = AHy.clone()`, `p = r`, `rsold = dot(r, r)`,
`rsnew = None`. -/
def CGStep.init (AHy : Vec B S) : CGState B S :=
  { r := AHy, p := AHy, rsold := CGStep.dot AHy AHy, rsnew := none }

/-- `CGStep.forward`: one conjugate-gradient iteration.  Returns the output
`input + p * alpha` and the updated state, following the source line by line:
`AHAp = AHA(p)`; `alpha = rsold / dot(p, AHAp)`; `output = input + p * alpha`;
`r = r + AHAp * (-alpha)`; `rsnew = real(dot(r, r))`;
`p = r + p * (rsnew / rsold)`; `rsold = rsnew`. -/
def CGStep.forward (AHA : Vec B S → Vec B S) (st : CGState B S) (input : Vec B S) :
    Vec B S × CGState B S :=
  let AHAp := AHA st.p
  let alpha := fun b => st.rsold b / CGStep.dot st.p AHAp b
  let output := fun b s => input b s + st.p b s * alpha b
  let rnew := fun b s => st.r b s + AHAp b s * (-alpha b)
  let rsnew := fun b => Cq.realPart (CGStep.dot rnew rnew b)
  let pnew := fun b s => rnew b s + st.p b s * (rsnew b / st.rsold b)
  (output, { r := rnew, p := pnew, rsold := rsnew, rsnew := some rsnew })

/-- `CGStep.check_convergence`: `True` iff a tolerance is set and
`(rsnew.sqrt() < tol).all()`.  For the nonnegative reals produced as `rsnew`,
the elementwise float comparison `sqrt(x) < tol` holds exactly when
`0 < tol ∧ x < tol ^ 2` (see `sqrt_lt_characterization`); when `tol` is `None`
the check is always `False`.  (When `rsnew` is still `None` the Python method
would raise; inside `cg_solve` the check only runs after a `forward`.) -/
def CGStep.check_convergence [DecidableEq B] (tol : Option ℚ) (st : CGState B S) : Bool :=
  match tol with
  | some t =>
    match st.rsnew with
    | some rs => decide (∀ b : B, 0 < t ∧ (rs b).re < t ^ 2)
    | none => false
  | none => false

/-- Faithfulness of the embedded convergence comparison: for a nonnegative
residual norm `x`, the float comparison `sqrt(x) < t` holds exactly when
`0 < t ∧ x < t ^ 2`. -/
theorem sqrt_lt_characterization (x t : ℝ) (_hx : 0 ≤ x) :
    Real.sqrt x < t ↔ (0 < t ∧ x < t ^ 2) := by
  constructor
  · intro h
    have ht : 0 < t := lt_of_le_of_lt (Real.sqrt_nonneg x) h
    refine ⟨ht, ?_⟩
    have := Real.sqrt_lt' ht (x := x)
    exact this.mp h
  · rintro ⟨ht, hlt⟩
    exact (Real.sqrt_lt' ht).mpr hlt

/-- Modelled from the spec: `deepmr.linops.Linop` (the module itself is not in
the sources, only its callers).  "Linear operator handle: an opaque
callable/object exposing `apply(x)` ..., composable via addition/scaling
(e.g. `AHA + λI`)"; `Linop.ndim` is "the number of spatial dimensions",
read by `CGStep.__init__`. -/
structure Linop (B S : Type) where
  ndim : ℕ
  apply : Vec B S → Vec B S

/-- Modelled from the spec: addition of linear-operator handles —
`(A + B)(x) = A(x) + B(x)`. -/
def Linop.addOp (A1 A2 : Linop B S) : Linop B S :=
  { ndim := A1.ndim, apply := fun x b s => A1.apply x b s + A2.apply x b s }

/-- Modelled from the spec: scaling of a linear-operator handle —
`(c * A)(x) = c * A(x)` for a real scalar `c`. -/
def Linop.scaleOp (c : ℚ) (A : Linop B S) : Linop B S :=
  { ndim := A.ndim, apply := fun x b s => Cq.ofRat c * A.apply x b s }

/-- Modelled from the spec: `deepmr.linops.Identity(ndim)`, the identity
linear-operator handle. -/
def Linop.identity (ndim : ℕ) : Linop B S :=
  { ndim := ndim, apply := fun x => x }

/-- The three operator representations `cg_solve` accepts for `AHA`: a
`deepmr.linops.Linop` handle, a plain callable, or a dense matrix (which the
solver applies as `AHA @ x`). -/
inductive Operator (B S : Type) where
  | linop (A : Linop B S)
  | callableOp (f : Vec B S → Vec B S)
  | matrix (M : S → S → Cq)

/-- Batched matrix-vector product `M @ x`. -/
def matVec (M : S → S → Cq) (x : Vec B S) : Vec B S :=
  fun b s => ∑ t, M s t * x b t

/-- The uniform "apply" of each operator representation. -/
def Operator.apply : Operator B S → Vec B S → Vec B S
  | .linop A => A.apply
  | .callableOp f => f
  | .matrix M => matVec M

/-- The Tikhonov branch of `cg_solve` (`# add Tikhonov regularization`):
if `lamda != 0.0` wrap the operator as `AHA + lamda * Identity(AHA.ndim)`
(Linop), `lambda x: AHA(x) + lamda * x` (callable), or
`lambda x: AHA @ x + lamda * x` (dense matrix); otherwise `_AHA = AHA`
unchanged. -/
def tikhonov (AHA : Operator B S) (lamda : ℚ) : Operator B S :=
  if lamda ≠ 0 then
    match AHA with
    | .linop A => .linop (A.addOp (Linop.scaleOp lamda (Linop.identity A.ndim)))
    | .callableOp f => .callableOp (fun x b s => f x b s + Cq.ofRat lamda * x b s)
    | .matrix M => .callableOp (fun x b s => matVec M x b s + Cq.ofRat lamda * x b s)
  else AHA

/-- The scalar cost recorded per iteration when `save_history` is set:
`dc = 0.5 * ‖output − AHy‖²` plus `reg = lamda * ‖output‖²` (exact squared
Frobenius norms over all axes). -/
def iterCost (lamda : ℚ) (AHy output : Vec B S) : ℚ :=
  (1 / 2) * (∑ b, ∑ s, Cq.normSq (output b s - AHy b s))
    + lamda * (∑ b, ∑ s, Cq.normSq (output b s))

/-- Result of the `for n in range(niter)` loop of `cg_solve`: the last value
assigned to `output` (`none` when the body never ran), the recorded history,
the number of executed iterations, and whether the loop exited via the
convergence `break`. -/
structure RunResult (B S : Type) where
  output : Option (Vec B S)
  history : List ℚ
  steps : ℕ
  broke : Bool

/-- The body of `cg_solve`'s loop: run `CG(input)`, break if converged
(before recording history), otherwise set `input = output`, append the cost
when `save_history`, and continue with the remaining fuel. -/
def cg_loop [DecidableEq B] (AHA : Vec B S → Vec B S) (tol : Option ℚ)
    (save_history : Bool) (lamda : ℚ) (AHy : Vec B S) :
    ℕ → Vec B S → CGState B S → List ℚ → Option (Vec B S) → ℕ → RunResult B S
  | 0, _, _, hist, out, steps => ⟨out, hist, steps, false⟩
  | fuel + 1, input, st, hist, _, steps =>
    let res := CGStep.forward AHA st input
    if CGStep.check_convergence tol res.2 then
      ⟨some res.1, hist, steps + 1, true⟩
    else
      let hist2 := if save_history then hist ++ [iterCost lamda AHy res.1] else hist
      cg_loop AHA tol save_history lamda AHy fuel res.1 res.2 hist2 (some res.1) (steps + 1)

/-- `cg_solve`: assert history is recorded when verbose, copy the input as
`AHy`, apply the Tikhonov wrapping, build the `CGStep` from `AHy`, zero the
initial guess (`input = 0 * input`), and run the iteration loop.  Reaching
the final `output = output.to(device)` with the loop body never executed is
Python's `UnboundLocalError`; the assertion failure is an `AssertionError`.
Device movement and the numpy/tensor container round-trip are identities in
this embedding. -/
def cg_solve [DecidableEq B] (input : Vec B S) (AHA : Operator B S) (niter : ℤ)
    (tol : Option ℚ) (lamda : ℚ) (save_history : Bool) (verbose : Bool) :
    Except String (Vec B S × List ℚ) :=
  if verbose ∧ save_history = false then
    .error "AssertionError: We need to record history to print information."
  else
    let AHy := input
    let op := tikhonov AHA lamda
    let st := CGStep.init AHy
    let res := cg_loop op.apply tol save_history lamda AHy niter.toNat
      (zeroVec) st [] none 0
    match res.output with
    | none => .error "UnboundLocalError: local variable referenced before assignment"
    | some out => .ok (out, res.history)

/-- The loop `cg_solve` runs, as a `RunResult`: Tikhonov-wrapped operator,
`CGStep` built from `AHy = input`, zeroed initial guess, empty history. -/
def cgRun [DecidableEq B] (input : Vec B S) (AHA : Operator B S) (niter : ℤ)
    (tol : Option ℚ) (lamda : ℚ) (save_history : Bool) : RunResult B S :=
  cg_loop (tikhonov AHA lamda).apply tol save_history lamda input niter.toNat
    zeroVec (CGStep.init input) [] none 0

/-- Reference recursion for stating loop properties: thread
`(input, state)` through `n` unconditional `CGStep.forward` steps. -/
def runPlain (AHA : Vec B S → Vec B S) : ℕ → Vec B S × CGState B S → Vec B S × CGState B S
  | 0, y => y
  | n + 1, y => runPlain AHA n (CGStep.forward AHA y.2 y.1)

/-- Index (counting executed iterations, so ≥ 1) of the first iteration whose
post-step state passes the convergence check, within the given fuel; `none`
if no iteration converges. -/
def firstConv [DecidableEq B] (AHA : Vec B S → Vec B S) (tol : Option ℚ) :
    ℕ → Vec B S × CGState B S → Option ℕ
  | 0, _ => none
  | fuel + 1, y =>
    let res := CGStep.forward AHA y.2 y.1
    if CGStep.check_convergence tol res.2 then some 1
    else (firstConv AHA tol fuel res).map (· + 1)

/-- The spec's inner product `⟨s1, s2⟩`: conjugate the left operand and sum
over the trailing `ndim` (spatial) axes only, producing one scalar per leading
batch index.  Stated from the spec's words, to be compared with the source's
`CGStep.dot`. -/
def specInner (s1 s2 : Vec B S) : B → Cq :=
  fun b => ∑ s, Cq.conj (s1 b s) * s2 b s

theorem specInner_eq_dot (s1 s2 : Vec B S) : specInner s1 s2 = CGStep.dot s1 s2 := rfl

/-- Positive semidefiniteness of an operator with respect to the solver's
batched inner product: `⟨x, A x⟩` is real and nonnegative in every batch. -/
def IsPSD (A : Vec B S → Vec B S) : Prop :=
  ∀ (x : Vec B S) (b : B),
    (CGStep.dot x (A x) b).im = 0 ∧ 0 ≤ (CGStep.dot x (A x) b).re

end CG

section LoopLemmas

variable {B S : Type} [Fintype B] [Fintype S] [DecidableEq B]
variable {AHA : Vec B S → Vec B S} {tol : Option ℚ} {sh : Bool} {lam : ℚ} {AHy : Vec B S}

theorem check_convergence_none (st : CGState B S) :
    CGStep.check_convergence none st = false := rfl

theorem runPlain_succ (n : ℕ) (y : Vec B S × CGState B S) :
    runPlain AHA (n + 1) y = runPlain AHA n (CGStep.forward AHA y.2 y.1) := rfl

theorem firstConv_succ (fuel : ℕ) (y : Vec B S × CGState B S) :
    firstConv AHA tol (fuel + 1) y =
      if CGStep.check_convergence tol (CGStep.forward AHA y.2 y.1).2 then some 1
      else (firstConv AHA tol fuel (CGStep.forward AHA y.2 y.1)).map (· + 1) := rfl

theorem firstConv_tol_none (fuel : ℕ) (y : Vec B S × CGState B S) :
    firstConv AHA none fuel y = none := by
  induction fuel generalizing y with
  | zero => rfl
  | succ n ih =>
    rw [firstConv_succ, check_convergence_none]
    simpa using ih _

theorem cg_loop_succ (fuel : ℕ) (x : Vec B S) (st : CGState B S) (hist : List ℚ)
    (out : Option (Vec B S)) (steps : ℕ) :
    cg_loop AHA tol sh lam AHy (fuel + 1) x st hist out steps =
      (if CGStep.check_convergence tol (CGStep.forward AHA st x).2 then
        ⟨some (CGStep.forward AHA st x).1, hist, steps + 1, true⟩
      else
        cg_loop AHA tol sh lam AHy fuel (CGStep.forward AHA st x).1
          (CGStep.forward AHA st x).2
          (if sh then hist ++ [iterCost lam AHy (CGStep.forward AHA st x).1] else hist)
          (some (CGStep.forward AHA st x).1) (steps + 1)) := rfl

/-- If no iteration within the fuel converges, the loop never breaks, executes
all iterations, and ends with the output of the last executed iteration. -/
theorem cg_loop_of_firstConv_none (fuel : ℕ) :
    ∀ (x : Vec B S) (st : CGState B S) (hist : List ℚ) (out : Option (Vec B S)) (steps : ℕ),
      firstConv AHA tol fuel (x, st) = none →
      (cg_loop AHA tol sh lam AHy fuel x st hist out steps).broke = false ∧
      (cg_loop AHA tol sh lam AHy fuel x st hist out steps).steps = steps + fuel ∧
      (cg_loop AHA tol sh lam AHy fuel x st hist out steps).output =
        (if fuel = 0 then out else some (runPlain AHA fuel (x, st)).1) := by
  induction fuel with
  | zero => intro x st hist out steps _; exact ⟨rfl, rfl, rfl⟩
  | succ n ih =>
    intro x st hist out steps h
    rw [firstConv_succ] at h
    by_cases hc : CGStep.check_convergence tol (CGStep.forward AHA st x).2 = true
    · rw [if_pos hc] at h; cases h
    · rw [if_neg hc] at h
      have h2 : firstConv AHA tol n (CGStep.forward AHA st x) = none := by
        rcases hfc : firstConv AHA tol n (CGStep.forward AHA st x) with _ | m
        · rfl
        · rw [hfc] at h; simp at h
      rw [cg_loop_succ, if_neg hc]
      obtain ⟨hb, hs, ho⟩ := ih (CGStep.forward AHA st x).1 (CGStep.forward AHA st x).2
        (if sh then hist ++ [iterCost lam AHy (CGStep.forward AHA st x).1] else hist)
        (some (CGStep.forward AHA st x).1) (steps + 1) h2
      refine ⟨hb, by rw [hs]; omega, ?_⟩
      rw [ho]
      rcases Nat.eq_zero_or_pos n with hn | hn
      · subst hn; simp [runPlain]
      · rw [if_neg (by omega), if_neg (by omega), runPlain_succ]

/-- If the first converging iteration is the `m`-th one, the loop breaks there
and returns that iteration's output. -/
theorem cg_loop_of_firstConv_some (fuel : ℕ) :
    ∀ (x : Vec B S) (st : CGState B S) (hist : List ℚ) (out : Option (Vec B S))
      (steps m : ℕ),
      firstConv AHA tol fuel (x, st) = some m →
      (cg_loop AHA tol sh lam AHy fuel x st hist out steps).broke = true ∧
      (cg_loop AHA tol sh lam AHy fuel x st hist out steps).steps = steps + m ∧
      (cg_loop AHA tol sh lam AHy fuel x st hist out steps).output =
        some (runPlain AHA m (x, st)).1 := by
  induction fuel with
  | zero => intro x st hist out steps m h; cases h
  | succ n ih =>
    intro x st hist out steps m h
    rw [firstConv_succ] at h
    by_cases hc : CGStep.check_convergence tol (CGStep.forward AHA st x).2 = true
    · rw [if_pos hc] at h
      have hm : m = 1 := by cases h; rfl
      subst hm
      rw [cg_loop_succ, if_pos hc]
      exact ⟨rfl, rfl, rfl⟩
    · rw [if_neg hc] at h
      rcases Option.map_eq_some'.mp h with ⟨m0, hfc, hm⟩
      subst hm
      rw [cg_loop_succ, if_neg hc]
      obtain ⟨hb, hs, ho⟩ := ih (CGStep.forward AHA st x).1 (CGStep.forward AHA st x).2
        (if sh then hist ++ [iterCost lam AHy (CGStep.forward AHA st x).1] else hist)
        (some (CGStep.forward AHA st x).1) (steps + 1) m0 hfc
      exact ⟨hb, by rw [hs]; omega, by rw [ho, runPlain_succ]⟩

/-- A converging iteration exists within the fuel iff some iterate within the
fuel passes the convergence check. -/
theorem firstConv_isSome_iff (fuel : ℕ) :
    ∀ y : Vec B S × CGState B S,
      (firstConv AHA tol fuel y).isSome = true ↔
      ∃ m, 1 ≤ m ∧ m ≤ fuel ∧
        CGStep.check_convergence tol (runPlain AHA m y).2 = true := by
  induction fuel with
  | zero =>
    intro y
    constructor
    · intro h; cases h
    · rintro ⟨m, h1, h2, _⟩; omega
  | succ n ih =>
    intro y
    rw [firstConv_succ]
    by_cases hc : CGStep.check_convergence tol (CGStep.forward AHA y.2 y.1).2 = true
    · rw [if_pos hc]
      refine iff_of_true rfl ⟨1, le_refl 1, by omega, ?_⟩
      rw [show runPlain AHA 1 y = CGStep.forward AHA y.2 y.1 from rfl]
      exact hc
    · rw [if_neg hc]
      have hmap : ∀ o : Option ℕ, (o.map (· + 1)).isSome = o.isSome := by
        intro o; cases o <;> rfl
      rw [hmap, ih (CGStep.forward AHA y.2 y.1)]
      constructor
      · rintro ⟨m, h1, h2, h3⟩
        exact ⟨m + 1, by omega, by omega, by rw [runPlain_succ]; exact h3⟩
      · rintro ⟨m, h1, h2, h3⟩
        rcases Nat.exists_eq_add_of_le h1 with ⟨m0, hm⟩
        subst hm
        rcases Nat.eq_zero_or_pos m0 with h0 | h0
        · subst h0
          rw [show runPlain AHA (1 + 0) y = CGStep.forward AHA y.2 y.1 from rfl] at h3
          exact absurd h3 hc
        · refine ⟨m0, by omega, by omega, ?_⟩
          rw [show 1 + m0 = m0 + 1 from by omega, runPlain_succ] at h3
          exact h3

/-- With `verbose = False`, `cg_solve` is exactly the loop of `cgRun`
followed by the `output` match (`UnboundLocalError` when the body never
ran). -/
theorem cg_solve_eq_run (input : Vec B S) (op : Operator B S) (niter : ℤ)
    (lam : ℚ) :
    cg_solve input op niter tol lam sh false =
      (match (cgRun input op niter tol lam sh).output with
       | none =>
          Except.error "UnboundLocalError: local variable referenced before assignment"
       | some out => Except.ok (out, (cgRun input op niter tol lam sh).history)) := rfl

end LoopLemmas

section Residual

variable {B S : Type} [Fintype B] [Fintype S]

theorem dot_self_re_eq_sum_normSq (v : Vec B S) (b : B) :
    (CGStep.dot v v b).re = ∑ s, Cq.normSq (v b s) := by
  have h : (CGStep.dot v v b).re = Cq.reHom (∑ s, Cq.conj (v b s) * v b s) := rfl
  rw [h, map_sum]
  exact Finset.sum_congr rfl fun s _ => Cq.conj_mul_self_re _

theorem dot_self_re_nonneg (v : Vec B S) (b : B) : 0 ≤ (CGStep.dot v v b).re := by
  rw [dot_self_re_eq_sum_normSq]
  exact Finset.sum_nonneg fun s _ => Cq.normSq_nonneg _

theorem dot_self_im_zero (v : Vec B S) (b : B) : (CGStep.dot v v b).im = 0 := by
  have h : (CGStep.dot v v b).im = Cq.imHom (∑ s, Cq.conj (v b s) * v b s) := rfl
  rw [h, map_sum]
  exact Finset.sum_eq_zero fun s _ => Cq.conj_mul_self_im _

end Residual

namespace Scenario

/-- The default tolerance of `cg_solve` (`tol=1e-4`). -/
def tolDefault : ℚ := 1 / 10000

/-- Scenario C right-hand side: `b = [1+0j, 2+0j]`, a single batch element
with two spatial entries (`ndim = 1`). -/
def bScenC : Vec (Fin 1) (Fin 2) := fun _ => ![⟨1, 0⟩, ⟨2, 0⟩]

/-- The identity operator passed as a plain callable, `lambda x: x`. -/
def idOpC : Operator (Fin 1) (Fin 2) := Operator.callableOp (fun x => x)

/-- The `CGStep` state after the single Scenario C iteration: residual,
search direction and both scalars all zero. -/
def convergedStateC : CGState (Fin 1) (Fin 2) :=
  { r := fun _ _ => 0, p := fun _ _ => 0, rsold := fun _ => 0,
    rsnew := some (fun _ => 0) }

/-- Diagonal of the positive-semi-definite operator used against claim C7. -/
def dDiag : Fin 3 → ℚ := ![1, 5, 10]

/-- The PSD operator `diag(1, 5, 10)` applied as a callable. -/
def APsd : Vec (Fin 1) (Fin 3) → Vec (Fin 1) (Fin 3) :=
  fun x b s => Cq.ofRat (dDiag s) * x b s

/-- Right-hand side `b = (2, 4, 1)` for the C7 counterexample. -/
def bPsd : Vec (Fin 1) (Fin 3) := fun _ => ![⟨2, 0⟩, ⟨4, 0⟩, ⟨1, 0⟩]

/-- The exact `CGStep` state after the first iteration on `APsd`, `bPsd`:
`r₁ = (73/47, −22/47, −58/47)`, `p₁ = (4305/2209, 714/2209, −2289/2209)`,
`rsnew₁ = 9177/2209`. -/
def statePsd1 : CGState (Fin 1) (Fin 3) :=
  { r := fun _ => ![⟨73/47, 0⟩, ⟨-22/47, 0⟩, ⟨-58/47, 0⟩],
    p := fun _ => ![⟨4305/2209, 0⟩, ⟨714/2209, 0⟩, ⟨-2289/2209, 0⟩],
    rsold := fun _ => ⟨9177/2209, 0⟩,
    rsnew := some (fun _ => ⟨9177/2209, 0⟩) }

/-- The all-zero right-hand side on a single scalar cell, a degenerate solve. -/
def zeroScal : Vec (Fin 1) (Fin 1) := fun _ _ => 0

/-- A one-element vector with entry 1. -/
def oneScal : Vec (Fin 1) (Fin 1) := fun _ _ => 1

theorem dot_bScenC : CGStep.dot bScenC bScenC = fun _ => (⟨5, 0⟩ : Cq) := by
  funext b
  simp [CGStep.dot, Fin.sum_univ_two, bScenC]
  apply Cq.ext2 <;> norm_num

theorem forward_bScenC :
    CGStep.forward (Operator.apply idOpC) (CGStep.init bScenC) zeroVec
      = (bScenC, convergedStateC) := by
  simp only [CGStep.forward, CGStep.init, idOpC, Operator.apply, dot_bScenC]
  rw [Prod.mk.injEq]
  refine ⟨?_, ?_⟩
  · funext b s
    fin_cases b <;> fin_cases s <;>
      (apply Cq.ext2 <;> simp [bScenC, zeroVec] <;> norm_num)
  · simp only [CGState.mk.injEq, convergedStateC]
    refine ⟨?_, ?_, ?_, ?_⟩
    · funext b s
      fin_cases b <;> fin_cases s <;>
        (apply Cq.ext2 <;> simp [bScenC, CGStep.dot, Fin.sum_univ_two] <;> norm_num)
    · funext b s
      fin_cases b <;> fin_cases s <;>
        (apply Cq.ext2 <;> simp [bScenC, CGStep.dot, Fin.sum_univ_two] <;> norm_num)
    · funext b
      fin_cases b
      apply Cq.ext2 <;> simp [bScenC, CGStep.dot, Fin.sum_univ_two] <;> norm_num
    · rw [Option.some.injEq]
      funext b
      fin_cases b
      apply Cq.ext2 <;> simp [bScenC, CGStep.dot, Fin.sum_univ_two] <;> norm_num

theorem check_convergedStateC :
    CGStep.check_convergence (some tolDefault) convergedStateC = true := by
  simp [CGStep.check_convergence, convergedStateC, tolDefault]

theorem APsd_isPSD : IsPSD APsd := by
  intro x b
  constructor
  · have h : (CGStep.dot x (APsd x) b).im
        = Cq.imHom (∑ s, Cq.conj (x b s) * (Cq.ofRat (dDiag s) * x b s)) := rfl
    rw [h, map_sum]
    exact Finset.sum_eq_zero fun s _ => Cq.conj_mul_scaled_self_im _ _
  · have h : (CGStep.dot x (APsd x) b).re
        = Cq.reHom (∑ s, Cq.conj (x b s) * (Cq.ofRat (dDiag s) * x b s)) := rfl
    rw [h, map_sum]
    refine Finset.sum_nonneg fun s _ => ?_
    rw [Cq.reHom_apply, Cq.conj_mul_scaled_self_re]
    refine mul_nonneg ?_ (Cq.normSq_nonneg _)
    fin_cases s <;> norm_num [dDiag]

theorem forward_bPsd :
    (CGStep.forward APsd (CGStep.init bPsd) zeroVec).2 = statePsd1 := by
  simp only [CGStep.forward, CGStep.init, APsd]
  simp only [CGState.mk.injEq, statePsd1]
  refine ⟨?_, ?_, ?_, ?_⟩
  · funext b s
    fin_cases b <;> fin_cases s <;>
      (apply Cq.ext2 <;> simp [APsd, bPsd, dDiag, CGStep.dot, Fin.sum_univ_three] <;> norm_num)
  · funext b s
    fin_cases b <;> fin_cases s <;>
      (apply Cq.ext2 <;> simp [APsd, bPsd, dDiag, CGStep.dot, Fin.sum_univ_three] <;> norm_num)
  · funext b
    fin_cases b
    apply Cq.ext2 <;> simp [APsd, bPsd, dDiag, CGStep.dot, Fin.sum_univ_three] <;> norm_num
  · rw [Option.some.injEq]
    funext b
    fin_cases b
    apply Cq.ext2 <;> simp [APsd, bPsd, dDiag, CGStep.dot, Fin.sum_univ_three] <;> norm_num

theorem rsnew_after_second_step :
    ((CGStep.forward APsd statePsd1 zeroVec).2.rsold 0).re = 2265408 / 502681 := by
  simp only [CGStep.forward, APsd]
  simp only [Cq.realPart_re]
  rw [dot_self_re_eq_sum_normSq]
  simp [APsd, statePsd1, dDiag, CGStep.dot, Fin.sum_univ_three]
  norm_num

end Scenario

/-- C1: Each call of `CGStep.forward` performs exactly one conjugate-gradient
iteration on its state: with `q = AHA(p)`, it returns
`output = input + α·p` where `α = rsold / ⟨p,q⟩`, and updates the state to
`r := r − α·q`, `rsnew := Re⟨r,r⟩`, `p := r + (rsnew/rsold)·p`,
`rsold := rsnew`, where the inner product `⟨s1,s2⟩` (`specInner`) conjugates
the left operand and sums over the trailing spatial axes only, producing one
scalar per leading batch index. -/
theorem CGStep_forward_matches_spec_iteration {B S : Type} [Fintype B] [Fintype S]
    (AHA : Vec B S → Vec B S) (st : CGState B S) (input : Vec B S) :
    (CGStep.forward AHA st input).1
        = (fun b s => input b s
            + (st.rsold b / specInner st.p (AHA st.p) b) * st.p b s)
    ∧ (CGStep.forward AHA st input).2.r
        = (fun b s => st.r b s
            - (st.rsold b / specInner st.p (AHA st.p) b) * AHA st.p b s)
    ∧ (CGStep.forward AHA st input).2.rsnew
        = some (fun b => Cq.realPart (specInner (CGStep.forward AHA st input).2.r
            ((CGStep.forward AHA st input).2.r) b))
    ∧ (CGStep.forward AHA st input).2.p
        = (fun b s => (CGStep.forward AHA st input).2.r b s
            + ((CGStep.forward AHA st input).2.rsold b / st.rsold b) * st.p b s)
    ∧ (CGStep.forward AHA st input).2.rsold
        = (fun b => Cq.realPart (specInner (CGStep.forward AHA st input).2.r
            ((CGStep.forward AHA st input).2.r) b)) := by
  have hcomm : ∀ a x y : Cq, x + y * a = x + a * y := by
    intro a x y; rw [mul_comm]
  have hneg : ∀ a x y : Cq, x + y * (-a) = x - a * y := by
    intro a x y; ring
  refine ⟨?_, ?_, rfl, ?_, rfl⟩
  · funext b s
    exact hcomm _ _ _
  · funext b s
    exact hneg _ _ _
  · funext b s
    exact hcomm _ _ _

/-- C7 counterexample: for the positive-semi-definite operator
`diag(1, 5, 10)` and right-hand side `(2, 4, 1)`, the squared residual norm
strictly increases between the first and the second `CGStep.forward`
iteration (`9177/2209 < 2265408/502681`), so `rsnew` is not non-increasing
across iterations for a PSD operator. -/
theorem cg_rsnew_not_monotone_psd :
    IsPSD Scenario.APsd
    ∧ (CGStep.forward Scenario.APsd (CGStep.init Scenario.bPsd) zeroVec).2.rsnew
        = some ((CGStep.forward Scenario.APsd (CGStep.init Scenario.bPsd) zeroVec).2.rsold)
    ∧ ((CGStep.forward Scenario.APsd (CGStep.init Scenario.bPsd) zeroVec).2.rsold 0).re
        < ((CGStep.forward Scenario.APsd
            (CGStep.forward Scenario.APsd (CGStep.init Scenario.bPsd) zeroVec).2
            zeroVec).2.rsold 0).re := by
  refine ⟨Scenario.APsd_isPSD, rfl, ?_⟩
  rw [Scenario.forward_bPsd, Scenario.rsnew_after_second_step]
  show (9177 / 2209 : ℚ) < 2265408 / 502681
  norm_num

/-- C7 (amended): across successive `CGStep.forward` iterations the squared
residual norm `rsnew` is a nonnegative real in every batch element (and the
updated `rsold` equals it), but it need not be non-increasing, even for a
positive-semi-definite `AHA`. -/
theorem cg_rsnew_nonneg_every_step {B S : Type} [Fintype B] [Fintype S]
    (AHA : Vec B S → Vec B S) (st : CGState B S) (input : Vec B S) (b : B) :
    (CGStep.forward AHA st input).2.rsnew
        = some ((CGStep.forward AHA st input).2.rsold)
    ∧ 0 ≤ ((CGStep.forward AHA st input).2.rsold b).re
    ∧ ((CGStep.forward AHA st input).2.rsold b).im = 0 := by
  refine ⟨rfl, ?_, ?_⟩
  · show 0 ≤ (Cq.realPart (CGStep.dot _ _ b)).re
    rw [Cq.realPart_re]
    exact dot_self_re_nonneg _ b
  · show (Cq.realPart (CGStep.dot _ _ b)).im = 0
    exact Cq.realPart_im _

/-- C8: the divisions `α = rsold / ⟨p,q⟩` and `rsnew/rsold` in
`CGStep.forward` are unguarded: on the degenerate all-zero problem both
denominators are exactly zero, yet the step completes without any error path,
returning its input unchanged and silently propagating the degenerate state
(in this exact-arithmetic embedding division by zero yields zero; in floats
the same unguarded step yields non-finite values). -/
theorem cg_forward_unguarded_zero_denominator :
    CGStep.dot (CGStep.init Scenario.zeroScal).p
        ((fun x => x) (CGStep.init Scenario.zeroScal).p) = (fun _ => 0)
    ∧ (CGStep.init Scenario.zeroScal).rsold = (fun _ => 0)
    ∧ ∀ input : Vec (Fin 1) (Fin 1),
        (CGStep.forward (fun x => x) (CGStep.init Scenario.zeroScal) input).1 = input
        ∧ (CGStep.forward (fun x => x) (CGStep.init Scenario.zeroScal) input).2.rsold
            = (fun _ => 0) := by
  have hdot : CGStep.dot Scenario.zeroScal Scenario.zeroScal = fun _ => (0 : Cq) := by
    funext b
    apply Cq.ext2 <;> simp [CGStep.dot, Scenario.zeroScal, Fin.sum_univ_one]
  refine ⟨hdot, hdot, ?_⟩
  intro input
  constructor
  · funext b s
    show input b s + Scenario.zeroScal b s * _ = input b s
    simp [Scenario.zeroScal]
  · funext b
    apply Cq.ext2 <;>
      simp [CGStep.forward, CGStep.init, Scenario.zeroScal, CGStep.dot, Fin.sum_univ_one]

/-- C2: `cg_solve` stops early (breaks out of the loop) iff some iterate
within `niter` passes the convergence check — a tolerance is set and
`sqrt(rsnew) < tol` holds for every leading batch element — and then returns
the current iterate; with `tol = None` the check is always false and the
loop runs all `niter` iterations, returning the final iterate silently. -/
theorem cg_solve_early_stop_iff {B S : Type} [Fintype B] [Fintype S] [DecidableEq B]
    (input : Vec B S) (op : Operator B S) (niter : ℤ) (tol : Option ℚ)
    (lamda : ℚ) (sh : Bool) (hn : 1 ≤ niter) :
    ((cgRun input op niter tol lamda sh).broke = true
      ↔ ∃ m, 1 ≤ m ∧ m ≤ niter.toNat
          ∧ CGStep.check_convergence tol
              (runPlain (tikhonov op lamda).apply m (zeroVec, CGStep.init input)).2 = true)
    ∧ ((cgRun input op niter tol lamda sh).broke = true →
        (cgRun input op niter tol lamda sh).output
          = some (runPlain (tikhonov op lamda).apply
              (cgRun input op niter tol lamda sh).steps (zeroVec, CGStep.init input)).1)
    ∧ (tol = none →
        (cgRun input op niter tol lamda sh).broke = false
        ∧ (cgRun input op niter tol lamda sh).steps = niter.toNat
        ∧ (cgRun input op niter tol lamda sh).output
            = some (runPlain (tikhonov op lamda).apply niter.toNat
                (zeroVec, CGStep.init input)).1)
    ∧ (∀ out, (cgRun input op niter tol lamda sh).output = some out →
        cg_solve input op niter tol lamda sh false
          = Except.ok (out, (cgRun input op niter tol lamda sh).history)) := by
  have h4 : ∀ out, (cgRun input op niter tol lamda sh).output = some out →
      cg_solve input op niter tol lamda sh false
        = Except.ok (out, (cgRun input op niter tol lamda sh).history) := by
    intro out h
    rw [cg_solve_eq_run, h]
  unfold cgRun at h4 ⊢
  have hiff := @firstConv_isSome_iff B S _ _ _ (tikhonov op lamda).apply tol
    niter.toNat (zeroVec, CGStep.init input)
  rcases hfc : firstConv (tikhonov op lamda).apply tol niter.toNat
      (zeroVec, CGStep.init input) with _ | m
  · obtain ⟨hb, hs, ho⟩ := cg_loop_of_firstConv_none niter.toNat zeroVec
      (CGStep.init input) [] none 0 hfc
    rw [hfc] at hiff
    refine ⟨?_, ?_, ?_, h4⟩
    · rw [hb]
      simp only [Bool.false_eq_true, false_iff]
      intro hex
      have := hiff.mpr hex
      simp at this
    · rw [hb]
      simp
    · intro _
      refine ⟨hb, by rw [hs]; omega, ?_⟩
      rw [ho, if_neg (by omega)]
  · obtain ⟨hb, hs, ho⟩ := cg_loop_of_firstConv_some niter.toNat zeroVec
      (CGStep.init input) [] none 0 m hfc
    refine ⟨?_, ?_, ?_, h4⟩
    · rw [hb]
      simp only [true_iff]
      apply hiff.mp
      rw [hfc]
      rfl
    · intro _
      rw [ho, hs]
      simp
    · intro htol
      subst htol
      rw [firstConv_tol_none] at hfc
      cases hfc

/-- C2 witness: with `tol = None` and `niter = 1` on a concrete problem, the
loop does not break and runs exactly one iteration. -/
theorem cg_solve_early_stop_iff_witness :
    (cgRun Scenario.oneScal (Operator.callableOp (fun x => x)) 1 none 0 false).broke = false
    ∧ (cgRun Scenario.oneScal (Operator.callableOp (fun x => x)) 1 none 0 false).steps = 1 := by
  have h := cg_solve_early_stop_iff Scenario.oneScal (Operator.callableOp (fun x => x))
    1 none 0 false (by norm_num)
  exact ⟨(h.2.2.1 rfl).1, (h.2.2.1 rfl).2.1⟩

/-- C3: `cg_solve` starts from `x₀ = 0` regardless of the caller-supplied
input value: the `CGStep` is initialized with `r₀ = b`, `p₀ = r₀` and
`rsold = ⟨r₀,r₀⟩`, and the first returned iterate is `α₁·b` with
`α₁ = ⟨b,b⟩ / ⟨b, AHA(b)⟩` computed from `b` alone. -/
theorem cg_solve_zero_initialization {B S : Type} [Fintype B] [Fintype S] [DecidableEq B]
    (AHy : Vec B S) (op : Operator B S) (tol : Option ℚ) (lamda : ℚ) (sh : Bool) :
    (CGStep.init AHy).r = AHy
    ∧ (CGStep.init AHy).p = AHy
    ∧ (CGStep.init AHy).rsold = CGStep.dot AHy AHy
    ∧ (CGStep.init AHy).rsnew = none
    ∧ ∃ hist, cg_solve AHy op 1 tol lamda sh false
        = Except.ok ((fun b s => (CGStep.dot AHy AHy b
            / CGStep.dot AHy ((tikhonov op lamda).apply AHy) b) * AHy b s), hist) := by
  have hout : (CGStep.forward (tikhonov op lamda).apply (CGStep.init AHy) zeroVec).1
      = fun b s => (CGStep.dot AHy AHy b
          / CGStep.dot AHy ((tikhonov op lamda).apply AHy) b) * AHy b s := by
    funext b s
    show zeroVec b s + AHy b s * (CGStep.dot AHy AHy b
        / CGStep.dot AHy ((tikhonov op lamda).apply AHy) b) = _
    simp [zeroVec]
    exact mul_comm _ _
  refine ⟨rfl, rfl, rfl, rfl, ?_⟩
  rw [cg_solve_eq_run]
  unfold cgRun
  rw [show ((1 : ℤ)).toNat = 0 + 1 from rfl, cg_loop_succ]
  by_cases hc : CGStep.check_convergence tol
      (CGStep.forward (tikhonov op lamda).apply (CGStep.init AHy) zeroVec).2 = true
  · rw [if_pos hc]
    exact ⟨[], by rw [← hout]⟩
  · rw [if_neg hc]
    refine ⟨(if sh then [] ++ [iterCost lamda AHy (CGStep.forward
        (tikhonov op lamda).apply (CGStep.init AHy) zeroVec).1] else []), ?_⟩
    rw [← hout]
    rfl

/-- C4: with Tikhonov weight `lamda ≠ 0`, the operator driving the iteration
maps `x` to `AHA(x) + λ·x` uniformly for a Linop handle, a plain callable,
and a dense matrix (applied as `AHA @ x`); with `lamda = 0` the operator is
`AHA` unchanged. -/
theorem tikhonov_operator_uniform {B S : Type} [Fintype B] [Fintype S]
    (AHA : Operator B S) (lamda : ℚ) (x : Vec B S) :
    (lamda ≠ 0 →
      (tikhonov AHA lamda).apply x
        = fun b s => AHA.apply x b s + Cq.ofRat lamda * x b s)
    ∧ tikhonov AHA 0 = AHA := by
  constructor
  · intro hl
    cases AHA with
    | linop A =>
        simp [tikhonov, hl, Operator.apply, Linop.addOp, Linop.scaleOp, Linop.identity]
    | callableOp f =>
        simp [tikhonov, hl, Operator.apply]
    | matrix M =>
        simp [tikhonov, hl, Operator.apply]
  · simp [tikhonov]

/-- C4 witness: the Tikhonov wrapping of the callable identity with
`lamda = 2` at a concrete vector. -/
theorem tikhonov_operator_uniform_witness :
    (tikhonov (Operator.callableOp (fun x : Vec (Fin 1) (Fin 1) => x)) 2).apply
        Scenario.oneScal
      = fun b s => Scenario.oneScal b s + Cq.ofRat 2 * Scenario.oneScal b s :=
  (tikhonov_operator_uniform (Operator.callableOp (fun x => x)) 2 Scenario.oneScal).1
    (by norm_num)

/-- C5: with the identity operator (a plain callable `x ↦ x`),
`b = [1+0j, 2+0j]`, `ndim = 1` and `niter = 1`, `cg_solve` returns exactly
`[1+0j, 2+0j]`: in the single step `α = ⟨b,b⟩/⟨b,b⟩ = 1`, so the output is
`0 + 1·b = b`. -/
theorem cg_identity_one_step_exact :
    cg_solve Scenario.bScenC Scenario.idOpC 1 (some Scenario.tolDefault) 0 false false
      = Except.ok (Scenario.bScenC, []) := by
  simp [cg_solve, tikhonov, cg_loop, Scenario.forward_bScenC,
    Scenario.check_convergedStateC]

/-- C6 counterexample: in Scenario C with `save_history = True`, the returned
cost history is `[]`, not the claimed one-element `[0.0]`: the convergence
break precedes the history append, so the converged iteration records no
entry. -/
theorem cg_scenarioC_history_not_single_entry :
    cg_solve Scenario.bScenC Scenario.idOpC 1 (some Scenario.tolDefault) 0 true false
      = Except.ok (Scenario.bScenC, [])
    ∧ ([] : List ℚ) ≠ [0] := by
  constructor
  · simp [cg_solve, tikhonov, cg_loop, Scenario.forward_bScenC,
      Scenario.check_convergedStateC]
  · simp

/-- C6 (amended): in Scenario C with `save_history = True` the returned cost
history is empty — the loop breaks on convergence before appending that
iteration's cost, so the converged iteration contributes no history entry. -/
theorem cg_scenarioC_history_empty :
    cg_solve Scenario.bScenC Scenario.idOpC 1 (some Scenario.tolDefault) 0 true false
      = Except.ok (Scenario.bScenC, []) := by
  simp [cg_solve, tikhonov, cg_loop, Scenario.forward_bScenC,
    Scenario.check_convergedStateC]

/-- C9: for every input, `cg_solve` with `verbose=True` and
`save_history=False` fails the assertion "We need to record history to print
information." before constructing the `CGStep` and before any application of
`AHA` (the result is the same error for every operator). -/
theorem cg_solve_verbose_without_history_asserts {B S : Type} [Fintype B] [Fintype S]
    [DecidableEq B] (input : Vec B S) (AHA : Operator B S) (niter : ℤ)
    (tol : Option ℚ) (lamda : ℚ) :
    cg_solve input AHA niter tol lamda false true
      = Except.error "AssertionError: We need to record history to print information." :=
  rfl

/-- C10: for every input and every `niter ≤ 0`, the iteration loop of
`cg_solve` never executes, the local `output` is never assigned, and the
final `output = output.to(device)` line raises `UnboundLocalError`: no
result, not even the zero iterate, is returned. -/
theorem cg_solve_nonpositive_niter_unbound_local {B S : Type} [Fintype B] [Fintype S]
    [DecidableEq B] (input : Vec B S) (AHA : Operator B S) (niter : ℤ)
    (tol : Option ℚ) (lamda : ℚ) (sh : Bool) (h : niter ≤ 0) :
    cg_solve input AHA niter tol lamda sh false
      = Except.error "UnboundLocalError: local variable referenced before assignment" := by
  have h0 : niter.toNat = 0 := by omega
  simp [cg_solve, h0, cg_loop]

/-- C10 witness: the unbound-local error at the concrete call
`cg_solve oneScal (callable identity) (-3)`. -/
theorem cg_solve_nonpositive_niter_unbound_local_witness :
    cg_solve Scenario.oneScal (Operator.callableOp (fun x => x)) (-3) none 0 false false
      = Except.error "UnboundLocalError: local variable referenced before assignment" :=
  cg_solve_nonpositive_niter_unbound_local Scenario.oneScal
    (Operator.callableOp (fun x => x)) (-3) none 0 false (by decide)

end DeepMR
